import Mathlib

/-!
# Verification of the RMI model layer

Shallow embedding of the model layer of the RMI learned-index repository:

* `src/rmi_lib/src/models/learned_fib/neural_network.rs` — the tiny
  single-hidden-layer ReLU corrector (`NN`);
* `src/rmi_lib/src/models/learned_fib/mod.rs` — the prefix-bucket
  dispatcher (`LearnedFIB`, `clip`, `train_subset`, `save`);
* `src/src/models/radix.rs` — the radix extractor (`RadixModel`) and
  the radix hint table (`RadixTable`).

Modelling conventions:

* `f64` values are modelled as exact rationals (`ℚ`); `u64`/`usize`
  values as `ℕ` with an explicit `% 2 ^ 64` (resp. `% 2 ^ 32` for `u32`
  casts) wherever the Rust code can wrap or truncate.
* Rust code paths that panic (index out of bounds, `unwrap` on `None`,
  shift-overflow, `usize` underflow) are modelled with `Option`, `none`
  meaning the panic.  File contents are abstracted to the record
  sequences they hold; the one I/O failure the code provokes by itself —
  `NN::save` writing through the read-only handle that `File::open`
  returns — is modelled explicitly (`writeReadOnlyF64`), and
  `LearnedFIB::save` distinguishes a panic from a propagated `Err`
  (`SaveResult`).
* The helpers `common_prefix_size` and `num_bits` live in
  `models/utils.rs`, which is not part of the provided sources; they are
  modelled from the specification text and marked as such below.
-/

/-- `relu` from `neural_network.rs`: `0` on negative inputs, identity on
non-negative ones (the Rust `match` is total over the modelled reals). -/
def relu (x : ℚ) : ℚ := if x < 0 then 0 else x

/-- The `NN` struct of `neural_network.rs`: hidden-layer weights, second
layer weights, hidden-layer biases and the scalar output bias. -/
structure NN where
  weights1 : List ℚ
  weights2 : List ℚ
  biases1 : List ℚ
  bias2 : ℚ
  deriving DecidableEq, Repr

/-- `NN::new()`: empty parameter vectors, zero output bias. -/
def NN.new : NN := { weights1 := [], weights2 := [], biases1 := [], bias2 := 0 }

/-- Slope of the line through two consecutive breakpoints,
`(y2 - y1) / (x2 - x1)` in `NN::train` (keys already converted by
`as_float`, positions by `u64::try_from(..).unwrap() as f64`). -/
def slopeOf (a b : ℚ × ℕ) : ℚ := ((b.2 : ℚ) - (a.2 : ℚ)) / (b.1 - a.1)

/-- The body of the `NN::train` loop.  The loop walks consecutive
breakpoint pairs carrying `prev_slope`; for each pair it pushes
`|cur_slope - prev_slope|` onto `weights1`, `-(x1 * w)` onto `biases1`
and `±1` onto `weights2`.  Each produced triple is
`(weights1 entry, biases1 entry, weights2 entry)`. -/
def trainPairs : ℚ → List ((ℚ × ℕ) × (ℚ × ℕ)) → List (ℚ × ℚ × ℚ)
  | _, [] => []
  | prev, ab :: rest =>
    let s := slopeOf ab.1 ab.2
    (|s - prev|, -(ab.1.1 * |s - prev|), if prev < s then (1 : ℚ) else -1) ::
      trainPairs s rest

/-- `NN::train`.  With `end_idx = dataset.len() - 1`, the Rust loop runs
`idx` over `0 .. end_idx - 1`, i.e. over the consecutive pairs of the
first `len - 1` breakpoints — the final pair is never processed.  Those
pairs are exactly `ds.dropLast.zip ds.dropLast.tail`.  `bias2` is the
position of the first breakpoint. -/
def NN.train (ds : List (ℚ × ℕ)) : NN :=
  let pts := ds.dropLast
  let units := trainPairs 0 (pts.zip pts.tail)
  { weights1 := units.map (fun u => u.1)
    weights2 := units.map (fun u => u.2.2)
    biases1 := units.map (fun u => u.2.1)
    bias2 := ((ds.headD (0, 0)).2 : ℚ) }

/-- `NN::inference`: hidden layer `relu(input.mul_add(w, b))` over
`weights1.zip(biases1)`, combined with `weights2` and summed, plus
`bias2`. -/
def NN.inference (nn : NN) (input : ℚ) : ℚ :=
  ((((nn.weights1.zip nn.biases1).map
      (fun wb => relu (input * wb.1 + wb.2))).zip nn.weights2).map
    (fun q => q.1 * q.2)).sum + nn.bias2

/-- The record sequence `NN::save` writes (assuming the writes succeed):
all of `weights1`, then `weights2`, then `biases1`, then the single
`bias2`. -/
def NN.saveRecords (nn : NN) : List ℚ := nn.weights1 ++ nn.weights2 ++ nn.biases1 ++ [nn.bias2]

/-- The fate of one `write_f64::<LittleEndian>` issued through the
handle `NN::save` obtains from `File::open(model_path)`: `File::open`
yields a *read-only* handle, so the operating system rejects every
write and the Rust call returns `Err`. -/
def writeReadOnlyF64 (q : ℚ) : Option Unit := none

/-- `NN::save`: open the (previously created) file with `File::open` —
read-only — then attempt to write `weights1`, `weights2`, `biases1` and
finally `bias2` in order (`saveRecords`), the `?` on each write
propagating the first `Err`; the records are returned on success. -/
def NN.save (nn : NN) : Option (List ℚ) :=
  (nn.saveRecords.mapM writeReadOnlyF64).map (fun x => nn.saveRecords)

/-- The parsing step of `NN::load` applied to the records actually read
into `contents`.  On zero records, `(contents_len - 1)` underflows
(`usize`): a panic in debug mode, and in release mode the wrapped value
is `≡ 0 (mod 3)` and the subsequent slicing of the empty vector panics —
either way the call never returns, modelled as `none`.  A record count
not `≡ 1 (mod 3)` hits the `panic!("number of parameter is wierd!")`
arm. -/
def NN.parseContents (contents : List ℚ) : Option NN :=
  if contents.length = 0 then none
  else if (contents.length - 1) % 3 = 0 then
    let s := (contents.length - 1) / 3
    some { weights1 := contents.take s
           weights2 := (contents.drop s).take s
           biases1 := (contents.drop (2 * s)).take s
           bias2 := contents.getLast?.getD 0 }
  else none

/-- `NN::load` on a file holding `file` records.  The Rust code calls
`file.read_f64_into::<LittleEndian>(&mut contents)` with
`contents = Vec::new()`: `read_f64_into` fills exactly the given buffer,
whose length is zero, so zero records are read no matter what the file
holds. -/
def NN.loadModel (file : List ℚ) : Option NN := NN.parseContents (file.take 0)

/-- The contribution of one hidden unit `(w1, b1, w2)` to the network
output at input `t`: `w2 * relu(t * w1 + b1)`. -/
def unitVal (t : ℚ) (u : ℚ × ℚ × ℚ) : ℚ := u.2.2 * relu (t * u.1 + u.2.1)

/-- The running sum of signed kinks produced by the training loop on a
breakpoint list, with initial previous slope `p`, evaluated at input
`t`: each consecutive pair contributes
`(slope - prev_slope) * relu(t - x1)`. -/
def kinkSum : ℚ → List (ℚ × ℕ) → ℚ → ℚ
  | _, [], _ => 0
  | _, [_], _ => 0
  | p, a :: b :: rest, t =>
    (slopeOf a b - p) * relu (t - a.1) + kinkSum (slopeOf a b) (b :: rest) t

/-- `clip` from `learned_fib/mod.rs`: mask the low `prefix` bits of the
key, then shift right by `prefix`.  (Rust: `let mask = (1 << prefix) - 1;
(inp & mask) >> prefix`.) -/
def clip (inp pb : ℕ) : ℕ := (inp &&& ((1 <<< pb) - 1)) >>> pb

/-- The `LearnedFIB` struct: prefix bit width, one `NN` per populated
bucket, and the trained global maximum error. -/
structure LearnedFIB where
  pbits : ℕ
  neural_networks : List NN
  max_error : ℕ
  deriving DecidableEq, Repr

/-- The inner scan of `LearnedFIB::train_subset` for a candidate right
anchor `r`: fit the line through points `l` and `r` (in float space) and
test every interior index `i ∈ (l+1) .. (r-1)` against the threshold.
Returns `true` iff some interior error exceeds the threshold. -/
def segViolation (data : List (ℕ × ℕ)) (l r : ℕ) (threshold : ℚ) : Bool :=
  let xl : ℚ := ((data.getD l (0, 0)).1 : ℚ)
  let yl : ℚ := ((data.getD l (0, 0)).2 : ℚ)
  let xr : ℚ := ((data.getD r (0, 0)).1 : ℚ)
  let yr : ℚ := ((data.getD r (0, 0)).2 : ℚ)
  let a : ℚ := (yr - yl) / (xr - xl)
  let b : ℚ := yl - a * xl
  (List.range' (l + 1) (r - 1 - (l + 1))).any (fun i =>
    let xi : ℚ := ((data.getD i (0, 0)).1 : ℚ)
    let yi : ℚ := ((data.getD i (0, 0)).2 : ℚ)
    let pv : ℚ := a * xi + b
    decide (threshold < (if yi < pv then pv - yi else yi - pv)))

/-- One iteration of the outer `for r in (from + 2)..to` loop of
`train_subset`, acting on the state `(l, boundary)`: skip duplicate-key
anchors, otherwise on a threshold violation emit the breakpoint at
`r - 1` and restart the segment there. -/
def segStep (data : List (ℕ × ℕ)) (threshold : ℚ) (st : ℕ × List (ℕ × ℕ)) (r : ℕ) :
    ℕ × List (ℕ × ℕ) :=
  if (data.getD st.1 (0, 0)).1 = (data.getD r (0, 0)).1 then st
  else if (data.getD st.1 (0, 0)).1 = (data.getD (r - 1) (0, 0)).1 then st
  else if segViolation data st.1 r threshold then (r - 1, st.2 ++ [data.getD (r - 1) (0, 0)])
  else st

/-- The breakpoint list produced by `LearnedFIB::train_subset` on the
bucket slice `[frm, tto)`.  After the scan the code unwraps
`boundary.last()` — a panic (`none`) when no breakpoint was emitted —
and then force-appends the entry at index `data.len() - 1` of the whole
dataset (not `tto - 1`) when its key differs from the last breakpoint's
key. -/
def trainSubsetB (data : List (ℕ × ℕ)) (frm tto : ℕ) (threshold : ℚ) :
    Option (List (ℕ × ℕ)) :=
  let scan := (List.range' (frm + 2) (tto - (frm + 2))).foldl (segStep data threshold) (frm, [])
  match scan.2.getLast? with
  | none => none
  | some lastB =>
    if (data.getD (data.length - 1) (0, 0)).1 ≠ lastB.1 then
      some (scan.2 ++ [data.getD (data.length - 1) (0, 0)])
    else some scan.2

/-- `train_subset` followed by `nn.train(..)` on the emitted breakpoints
(keys converted by `as_float`). -/
def trainSubsetNN (data : List (ℕ × ℕ)) (frm tto : ℕ) (threshold : ℚ) : Option NN :=
  (trainSubsetB data frm tto threshold).map
    (fun bd => NN.train (bd.map (fun e => ((e.1 : ℚ), e.2))))

/-- Rust `as u64` on a non-NaN `f64`: truncate toward zero and saturate
to the `u64` range. -/
def f64toU64 (q : ℚ) : ℕ := min q.floor.toNat (2 ^ 64 - 1)

/-- One iteration of the training loop in `LearnedFIB::new`, acting on
the state `(prev_prefix, from, to, neural_networks)`.  When the bucket
index changes, `train_subset` is run on `[from, to)` targeting
`neural_networks[cur_prefix]` (an out-of-bounds index or a
`train_subset` panic is `none`), then `from` is reset; in every case
`to` advances. -/
def newStep (data : List (ℕ × ℕ)) (threshold : ℚ) (pb : ℕ)
    (st : ℕ × ℕ × ℕ × List NN) (datum : ℕ × ℕ) : Option (ℕ × ℕ × ℕ × List NN) :=
  match st with
  | (prev, frm, tto, nets) =>
    let cur := clip datum.1 pb
    if prev ≠ cur then
      match nets.get? cur, trainSubsetNN data frm tto threshold with
      | some _, some nn => some (cur, tto + 1, tto + 1, nets.set cur nn)
      | _, _ => none
    else some (prev, frm, tto + 1, nets)

/-- One iteration of the `check_error` loop in `LearnedFIB::new`:
dispatch on `clip`, predict, take the absolute difference as a `u64`
cast, and keep the running maximum.  Indexing `neural_networks[nn_idx]`
out of bounds is a panic (`none`). -/
def checkErrStep (nets : List NN) (pb : ℕ) (acc : ℕ) (datum : ℕ × ℕ) : Option ℕ :=
  match nets.get? (clip datum.1 pb) with
  | none => none
  | some nn =>
    let predicted := nn.inference (datum.1 : ℚ)
    let answer : ℚ := (datum.2 : ℚ)
    let err := f64toU64 (if answer < predicted then predicted - answer else answer - predicted)
    some (if acc < err then err else acc)

/-- `LearnedFIB::new`: allocate one `NN` per iteration of
`for _ in 1..(1 << prefix)` — that is `2 ^ prefix - 1` correctors — run
the training scan, then the `check_error` scan.  Keys provide both
integer (`as_uint`) and float (`as_float`) views; a key is modelled as a
`ℕ` whose float view is the exact cast. -/
def LearnedFIB.new (data : List (ℕ × ℕ)) (threshold : ℚ) (pb : ℕ) : Option LearnedFIB := do
  let nets0 := List.replicate ((1 <<< pb) - 1) NN.new
  let st ← data.foldlM (newStep data threshold pb) (0, 0, 0, nets0)
  let me ← data.foldlM (checkErrStep st.2.2.2 pb) 0
  some { pbits := pb, neural_networks := st.2.2.2, max_error := me }

/-- `LearnedFIB::predict_to_float`: dispatch on `clip`, then run the
selected corrector on the float view of the key.  (Rust panics when the
index is out of bounds; all uses below are in range, so the default is
immaterial.) -/
def LearnedFIB.predict_to_float (m : LearnedFIB) (inp : ℕ) : ℚ :=
  ((m.neural_networks.get? (clip inp m.pbits)).getD NN.new).inference (inp : ℚ)

/-- `LearnedFIB::error_bound`: `Some(self.max_error)`. -/
def LearnedFIB.error_bound (m : LearnedFIB) : Option ℕ := some m.max_error

/-- Outcome of `LearnedFIB::save`: a Rust panic from an out-of-bounds
index into `neural_networks`, an `Err` returned after `?` propagated an
I/O failure from `NN::save` at some bucket, or success with the files
written. -/
inductive SaveResult where
  | oobPanic : ℕ → SaveResult
  | ioError : ℕ → SaveResult
  | ok : List (List ℚ) → SaveResult
  deriving DecidableEq, Repr

/-- One iteration of the `LearnedFIB::save` loop at index `i`:
`fs::File::create` succeeds, then `neural_networks[i]` is indexed (a
panic when out of bounds), then `NN::save` runs on the created file and
its `Err` is propagated by `?`.  A panic or an `Err` aborts the
remaining iterations. -/
def saveStep (nets : List NN) (acc : SaveResult) (i : ℕ) : SaveResult :=
  match acc with
  | SaveResult.ok files =>
    match nets.get? i with
    | none => SaveResult.oobPanic i
    | some nn =>
      match nn.save with
      | none => SaveResult.ioError i
      | some recs => SaveResult.ok (files ++ [recs])
  | r => r

/-- `LearnedFIB::save`: for every `i in 0..(1 << prefix)` create the
file `nn_i` and run `neural_networks[i].save` on it. -/
def LearnedFIB.save (m : LearnedFIB) : SaveResult :=
  (List.range (1 <<< m.pbits)).foldl (saveStep m.neural_networks) (SaveResult.ok [])

/-- Brute-force recomputation of the maximum absolute error of a trained
dispatcher over a dataset, using `predict_to_float` on every entry —
the independent check demanded by the specification. -/
def bruteMaxError (m : LearnedFIB) (data : List (ℕ × ℕ)) : ℚ :=
  data.foldl (fun acc e => max acc |m.predict_to_float e.1 - (e.2 : ℚ)|) 0

/-- Whether all keys agree on their top `p` bits (out of 64). -/
def sharesTop (keys : List ℕ) (p : ℕ) : Bool :=
  match keys with
  | [] => true
  | k :: ks => ks.all (fun x => x >>> (64 - p) == k >>> (64 - p))

/-- Modelled from the spec: `common_prefix_size` (in `models/utils.rs`,
not under the provided sources) — "the number of bits common to every
key's top bits across the dataset", i.e. the greatest `p ≤ 64` such
that all keys agree on their top `p` bits. -/
def commonPrefixSize (data : List (ℕ × ℕ)) : ℕ :=
  Nat.findGreatest (fun p => sharesTop (data.map Prod.fst) p = true) 64

/-- Modelled from the spec: `num_bits` (in `models/utils.rs`, not under
the provided sources) — "the bit-length needed to represent the largest
observed position value": the greatest `b ≤ 64` with `2 ^ (b - 1) ≤ v`
(`0` for `v = 0`). -/
def numBits (v : ℕ) : ℕ := Nat.findGreatest (fun b => 2 ^ (b - 1) ≤ v) 64

/-- `RadixModel::new`, returning the `params` pair
`(common_prefix, bits)`: `(0, 0)` on an empty dataset, otherwise the
common key prefix size and the bit length of the largest value. -/
def RadixModel_new (data : List (ℕ × ℕ)) : ℕ × ℕ :=
  match data with
  | [] => (0, 0)
  | _ => (commonPrefixSize data, numBits ((data.map Prod.snd).foldl max 0))

/-- `RadixModel::predict_to_int`:
`(as_int << left_shift) >> (64 - num_bits)` in `u64` arithmetic.  A
shift amount of 64 or more (i.e. `left_shift ≥ 64`, or `num_bits = 0`)
is a shift-overflow panic, modelled as `none`. -/
def RadixModel_predict_to_int (params : ℕ × ℕ) (inp : ℕ) : Option ℕ :=
  if 64 ≤ params.1 then none
  else if params.2 = 0 then none
  else some (((inp <<< params.1) % 2 ^ 64) >>> (64 - params.2))

/-- `RadixModel::needs_bounds_check`: constantly `false`. -/
def RadixModel_needs_bounds_check : Bool := false

/-- The `RadixTable` struct: prefix bits, table bits and the hint
table. -/
structure RadixTable where
  pbits : ℕ
  tbits : ℕ
  hint_table : List ℕ
  deriving DecidableEq, Repr

/-- The bit-field extraction of `RadixTable::new` / `predict_to_int`:
`((x << prefix) >> prefix) >> (64 - (prefix + bits))` in `u64`
arithmetic. -/
def radixOf (p bits x : ℕ) : ℕ := (((x <<< p) % 2 ^ 64) >>> p) >>> (64 - (p + bits))

/-- Rust `as u32`: truncate modulo `2 ^ 32`. -/
def u32cast (y : ℕ) : ℕ := y % 2 ^ 32

/-- `for i in lo..(lo + cnt) { tbl[i] = y; }` — the back-fill loops of
`RadixTable::new`. -/
def backfill (y : ℕ) (tbl : List ℕ) (lo cnt : ℕ) : List ℕ :=
  (List.range' lo cnt).foldl (fun t i => t.set i y) tbl

/-- One iteration of the scan in `RadixTable::new`, on the state
`(hint_table, last_radix)`: skip entries whose bit-field equals
`last_radix`, otherwise record `y as u32` at the current bit-field slot
and back-fill the skipped slots `(last_radix + 1)..current`. -/
def tableScanStep (p bits : ℕ) (st : List ℕ × ℕ) (e : ℕ × ℕ) : List ℕ × ℕ :=
  let cur := radixOf p bits e.1
  if cur = st.2 then st
  else (backfill (u32cast e.2) (st.1.set cur (u32cast e.2)) (st.2 + 1) (cur - (st.2 + 1)), cur)

/-- `RadixTable::new`: start from `vec![0; 1 << bits]`, scan the data,
then set every trailing slot after `last_radix` to the table length
(as `u32`). -/
def RadixTable_new (data : List (ℕ × ℕ)) (bits : ℕ) : RadixTable :=
  let p := commonPrefixSize data
  let scanned := data.foldl (tableScanStep p bits) (List.replicate (2 ^ bits) 0, 0)
  { pbits := p
    tbits := bits
    hint_table :=
      backfill (u32cast (2 ^ bits)) scanned.1 (scanned.2 + 1) (2 ^ bits - (scanned.2 + 1)) }

/-- The invariant carried through the `RadixTable::new` scan, after `j`
entries have been processed (`st = (hint_table, last_radix)`). -/
def ScanInv (data : List (ℕ × ℕ)) (p bits j : ℕ) (st : List ℕ × ℕ) : Prop :=
  st.1.length = 2 ^ bits ∧
  (j = 0 → st.2 = 0) ∧
  (0 < j → st.2 = radixOf p bits ((data.getD (j - 1) (0, 0)).1)) ∧
  (∀ w v, w ≤ v → v ≤ st.2 → st.1.getD w 0 ≤ st.1.getD v 0) ∧
  (∀ v, v ≤ st.2 → st.1.getD v 0 ≤ j) ∧
  st.1.getD 0 0 = 0 ∧
  (∀ v, 1 ≤ v → (∃ i, i < j ∧ radixOf p bits ((data.getD i (0, 0)).1) = v) →
    st.1.getD v 0 = data.findIdx (fun e => radixOf p bits e.1 == v))

/-- Concrete breakpoint list for the `NN` interpolation counterexample. -/
def exC3 : List (ℚ × ℕ) := [(0, 0), (1, 1)]

/-- Degenerate bucket slice: two points, no possible violation. -/
def exC4a : List (ℕ × ℕ) := [(0, 0), (1, 1)]

/-- A dataset whose slice `[0, 4)` emits breakpoints but whose forced
final breakpoint comes from index `len - 1 = 4`, not `to - 1 = 3`. -/
def exC4b : List (ℕ × ℕ) := [(0, 0), (1, 5), (2, 0), (3, 0), (9, 9)]

/-- Sorted dataset with rank positions whose hint table is not
monotone: five keys of bit-field 0 followed by one key of bit-field 2
(at common prefix 1, table bits 2). -/
def exC7 : List (ℕ × ℕ) := [(0, 0), (1, 1), (2, 2), (3, 3), (4, 4), (2 ^ 62, 5)]

/-- Non-empty dataset on which the radix extractor panics: a single key,
so the common prefix is 64 bits, and a zero largest value, so
`num_bits = 0`. -/
def exC8 : List (ℕ × ℕ) := [(5, 0)]

/-! ## Basic lemmas -/

/-- The mask-then-shift bucket index is always zero: the masked value is
below `2 ^ pb`, and shifting it right by `pb` bits discards it
entirely. -/
theorem clip_zero (inp pb : ℕ) : clip inp pb = 0 := by
  have hpow : (1 <<< pb) = 2 ^ pb := by simp [Nat.shiftLeft_eq]
  have h1 : inp &&& ((1 <<< pb) - 1) ≤ (1 <<< pb) - 1 := Nat.and_le_right
  have hpos : 0 < 2 ^ pb := Nat.pos_pow_of_pos pb (by decide)
  have h2 : inp &&& ((1 <<< pb) - 1) < 2 ^ pb := by omega
  unfold clip
  rw [Nat.shiftRight_eq_div_pow]
  exact Nat.div_eq_of_lt h2

/-- Untrained corrector: `NN::new()` predicts `0` everywhere (empty
hidden layer, zero output bias). -/
theorem NN.inference_new (x : ℚ) : NN.new.inference x = 0 := by
  simp [NN.inference, NN.new]

/-- The `as u64` cast of a natural number seen as an `f64`. -/
theorem f64toU64_natCast (n : ℕ) : f64toU64 ((n : ℚ)) = min n (2 ^ 64 - 1) := by
  unfold f64toU64
  have hfl : ((n : ℚ)).floor = (n : ℤ) := by
    rw [Rat.floor_def']
    simp
  rw [hfl, Int.toNat_natCast]

/-! ## Claim C1 -/

/-- C1: for every key and every prefix width between 1 and 63, the
bucket-index function `clip` (mask the low `prefix` bits, then shift
right by `prefix`) yields 0, so every key is routed to bucket 0 both by
the training partition and by `predict_to_float` dispatch. -/
theorem clip_always_routes_to_bucket_zero (key pb : ℕ) (h1 : 1 ≤ pb) (h63 : pb ≤ 63) :
    clip key pb = 0 ∧
    ∀ m : LearnedFIB, m.pbits = pb →
      m.predict_to_float key = ((m.neural_networks.get? 0).getD NN.new).inference (key : ℚ) := by
  refine ⟨clip_zero key pb, fun m hm => ?_⟩
  unfold LearnedFIB.predict_to_float
  rw [hm, clip_zero]

/-- Witness for C1 at `key = 123456`, `prefix = 7`. -/
theorem clip_always_routes_to_bucket_zero_witness :
    1 ≤ 7 ∧ 7 ≤ 63 ∧
    (clip 123456 7 = 0 ∧
      ∀ m : LearnedFIB, m.pbits = 7 →
        m.predict_to_float 123456 =
          ((m.neural_networks.get? 0).getD NN.new).inference ((123456 : ℕ) : ℚ)) :=
  ⟨by decide, by decide, clip_always_routes_to_bucket_zero 123456 7 (by decide) (by decide)⟩

/-! ## The trained shape of `LearnedFIB::new` -/

/-- The training loop of `LearnedFIB::new` never fires `train_subset`:
since `clip` is constantly 0 and `prev_prefix` starts at 0, the branch
condition `prev_prefix != cur_prefix` is never true, so the fold only
advances `to`. -/
theorem foldlM_newStep_noop (data : List (ℕ × ℕ)) (t : ℚ) (pb : ℕ) :
    ∀ (l : List (ℕ × ℕ)) (frm tto : ℕ) (nets : List NN),
      l.foldlM (newStep data t pb) (0, frm, tto, nets) = some (0, frm, tto + l.length, nets) := by
  intro l
  induction l with
  | nil => intro frm tto nets; simp
  | cons e l ih =>
    intro frm tto nets
    rw [List.foldlM_cons]
    have hstep : newStep data t pb (0, frm, tto, nets) e = some (0, frm, tto + 1, nets) := by
      simp [newStep, clip_zero]
    rw [hstep]
    show l.foldlM (newStep data t pb) (0, frm, tto + 1, nets) = _
    rw [ih]
    congr 1
    simp
    omega

/-- The `check_error` fold of `LearnedFIB::new` over untrained
correctors: every prediction is 0, so the error of an entry is its
(saturating-cast) position value, and the fold computes a running
maximum. -/
theorem foldlM_checkErr (nets : List NN) (pb : ℕ) (hnet : nets.get? 0 = some NN.new) :
    ∀ (l : List (ℕ × ℕ)) (acc : ℕ),
      l.foldlM (checkErrStep nets pb) acc =
        some (l.foldl
          (fun acc e => if acc < min e.2 (2 ^ 64 - 1) then min e.2 (2 ^ 64 - 1) else acc) acc) := by
  intro l
  induction l with
  | nil => intro acc; simp
  | cons e l ih =>
    intro acc
    rw [List.foldlM_cons]
    have hstep : checkErrStep nets pb acc e =
        some (if acc < min e.2 (2 ^ 64 - 1) then min e.2 (2 ^ 64 - 1) else acc) := by
      unfold checkErrStep
      rw [clip_zero, hnet]
      dsimp only
      rw [NN.inference_new]
      have hlt : ¬ ((e.2 : ℚ) < 0) := not_lt.mpr (Nat.cast_nonneg e.2)
      rw [if_neg hlt]
      rw [show ((e.2 : ℚ) - 0) = ((e.2 : ℕ) : ℚ) from by ring]
      rw [f64toU64_natCast]
    rw [hstep]
    show l.foldlM (checkErrStep nets pb) _ = _
    rw [ih]
    simp

/-- The entry of bucket 0 in the freshly allocated corrector vector
(present whenever `prefix ≥ 1`). -/
theorem replicate_get0 (pb : ℕ) (h1 : 1 ≤ pb) :
    (List.replicate (2 ^ pb - 1) NN.new).get? 0 = some NN.new := by
  have hlen : 0 < 2 ^ pb - 1 := by
    have h2 : 2 ≤ 2 ^ pb := by
      calc 2 = 2 ^ 1 := rfl
      _ ≤ 2 ^ pb := Nat.pow_le_pow_right (by decide) h1
    omega
  rw [List.get?_eq_getElem?, List.getElem?_eq_getElem (by simpa using hlen)]
  simp

/-- Full characterisation of `LearnedFIB::new` for `prefix ≥ 1`: the
construction succeeds, all `2 ^ prefix - 1` correctors stay untrained,
and `max_error` is the running maximum of the (cast) position values. -/
theorem LearnedFIB.new_eq (data : List (ℕ × ℕ)) (t : ℚ) (pb : ℕ) (h1 : 1 ≤ pb) :
    LearnedFIB.new data t pb =
      some { pbits := pb
             neural_networks := List.replicate (2 ^ pb - 1) NN.new
             max_error := data.foldl
               (fun acc e => if acc < min e.2 (2 ^ 64 - 1) then min e.2 (2 ^ 64 - 1) else acc) 0 } := by
  have hget := replicate_get0 pb h1
  have hsl : (1 <<< pb) - 1 = 2 ^ pb - 1 := by simp [Nat.shiftLeft_eq]
  unfold LearnedFIB.new
  rw [hsl]
  dsimp only
  rw [foldlM_newStep_noop data t pb data 0 0 (List.replicate (2 ^ pb - 1) NN.new)]
  dsimp only [Option.bind_eq_bind, Option.some_bind]
  rw [foldlM_checkErr _ pb hget data 0]
  rfl

/-- Whatever `prefix` is, a successful `LearnedFIB::new` yields exactly
the freshly allocated (never retrained) vector of `2 ^ prefix - 1`
correctors. -/
theorem new_shape (data : List (ℕ × ℕ)) (t : ℚ) (pb : ℕ) (m : LearnedFIB)
    (hm : LearnedFIB.new data t pb = some m) :
    m.pbits = pb ∧ m.neural_networks = List.replicate (2 ^ pb - 1) NN.new := by
  unfold LearnedFIB.new at hm
  rw [show (1 <<< pb) - 1 = 2 ^ pb - 1 from by simp [Nat.shiftLeft_eq]] at hm
  dsimp only at hm
  rw [foldlM_newStep_noop data t pb data 0 0 _] at hm
  dsimp only [Option.bind_eq_bind, Option.some_bind] at hm
  cases hc : data.foldlM (checkErrStep (List.replicate (2 ^ pb - 1) NN.new) pb) 0 with
  | none => rw [hc] at hm; exact absurd hm (by simp)
  | some me =>
    rw [hc] at hm
    dsimp only [Option.some_bind] at hm
    have := Option.some.inj hm
    subst this
    exact ⟨rfl, rfl⟩

/-! ## Claim C2 -/

/-- C2 (evaluation at the failing input): with `prefix = 1` the
constructor allocates a single corrector — the loop `for _ in
1..(1 << prefix)` runs `2 ^ prefix - 1` times — whereas the claim
demands `2 ^ 1 = 2`.  (The code's own `save` assumes all `2 ^ prefix`
indices are populated, so the constructor, not the claim, is the
slip.) -/
theorem learnedFIB_alloc_count_eval :
    (∃ m, LearnedFIB.new [(1, 0)] 64 1 = some m ∧ m.neural_networks.length = 1) ∧
    (1 : ℕ) ≠ 2 ^ 1 :=
  ⟨⟨_, LearnedFIB.new_eq [(1, 0)] 64 1 (by decide), by simp⟩, by decide⟩

/-! ## Claim C4 -/

/-- C4 (evaluation at the failing inputs): on the degenerate two-point
bucket slice `[0, 2)` the trainer panics (`boundary.last().unwrap()` on
an empty list) instead of producing a trivial model; and on the slice
`[0, 4)` of `exC4b` it completes but force-appends the dataset entry at
index `len - 1 = 4`, `(9, 9)`, even though the bucket's final point at
index `to - 1 = 3` is `(3, 0)`. -/
theorem train_subset_eval :
    trainSubsetB exC4a 0 2 1 = none ∧
    trainSubsetB exC4b 0 4 0 = some [(2, 0), (9, 9)] ∧
    exC4b.getD (4 - 1) (0, 0) = (3, 0) := by
  refine ⟨rfl, ?_, by decide⟩
  show trainSubsetB [(0, 0), (1, 5), (2, 0), (3, 0), (9, 9)] 0 4 0 = some [(2, 0), (9, 9)]
  have hv2 : segViolation [(0, 0), (1, 5), (2, 0), (3, 0), (9, 9)] 0 2 0 = false := rfl
  have hv3 : segViolation [(0, 0), (1, 5), (2, 0), (3, 0), (9, 9)] 0 3 0 = true := by
    simp [segViolation, List.range', -Prod.mk_zero_zero]
    norm_num
  have hr : List.range' (0 + 2) (4 - (0 + 2)) = [2, 3] := rfl
  simp only [trainSubsetB, hr, List.foldl_cons, List.foldl_nil]
  rw [show segStep [(0, 0), (1, 5), (2, 0), (3, 0), (9, 9)] 0 (0, []) 2 = (0, []) from by
    simp [segStep, hv2, -Prod.mk_zero_zero]]
  rw [show segStep [(0, 0), (1, 5), (2, 0), (3, 0), (9, 9)] 0 (0, []) 3 = (2, [(2, 0)]) from by
    simp [segStep, hv3, -Prod.mk_zero_zero]]
  simp [-Prod.mk_zero_zero]

/-! ## Claim C6 -/

/-- C6: the save/load round trip of a corrector never yields its
parameters back: `NN::load` reads zero records (it fills exactly the
zero-length buffer it allocates, never sizing it from the file) and
then dies on the `(contents_len - 1)` underflow / empty-vector slicing,
for every trained corrector and in fact for every file.  (`NN::save` is
also broken at the I/O level: it opens the file read-only via
`File::open`, so its writes fail; the record layout itself matches the
loader's, which shows the round trip was the intent.) -/
theorem nn_save_load_roundtrip_never_succeeds (nn : NN) :
    NN.loadModel (NN.saveRecords nn) = none := rfl

/-! ## Claim C10 -/

/-- C10: `RadixModel::new` on an empty dataset yields the parameters
`(0, 0)` without failing; `predict_to_int` on those parameters
right-shifts by `64 - 0 = 64`, a shift-overflow panic, for every input;
and `needs_bounds_check` on this model is `false`. -/
theorem radixModel_empty_dataset_predict_panics :
    RadixModel_new [] = (0, 0) ∧
    (∀ inp : ℕ, RadixModel_predict_to_int (RadixModel_new []) inp = none) ∧
    RadixModel_needs_bounds_check = false :=
  ⟨rfl, fun _ => rfl, rfl⟩

/-! ## Claim C8 -/

/-- C8 is false as stated: `exC8 = [(5, 0)]` is a non-empty training
set and `5` is one of its keys, yet `predict_to_int` panics (the single
key makes the common prefix 64 bits and the zero largest value makes
`num_bits = 0`, so both shifts overflow), so no value in `[0, 2 ^ bits)`
is returned. -/
theorem radixModel_predict_counterexample :
    exC8 ≠ [] ∧ (5 : ℕ) ∈ exC8.map Prod.fst ∧
    ¬ ∃ v, RadixModel_predict_to_int (RadixModel_new exC8) 5 = some v ∧
      v < 2 ^ (RadixModel_new exC8).2 := by
  refine ⟨by decide, by decide, ?_⟩
  rintro ⟨v, hv, -⟩
  have h : RadixModel_predict_to_int (RadixModel_new exC8) 5 = none := by decide
  rw [h] at hv
  exact Option.noConfusion hv

/-- The trained bit count never exceeds 64. -/
theorem radixModel_bits_le (data : List (ℕ × ℕ)) : (RadixModel_new data).2 ≤ 64 := by
  unfold RadixModel_new
  cases data with
  | nil => simp
  | cons a l =>
    show numBits _ ≤ 64
    exact Nat.findGreatest_le 64

/-- C8 (amended): for a Radix Extractor whose trained common prefix is
at most 63 bits and whose trained bit count is at least 1 (both forced
by the counterexample: a single key gives prefix 64, an all-zero value
column gives 0 bits), `predict_to_int` on every key of the training set
succeeds and yields an integer in `[0, 2 ^ bits)`. -/
theorem radixModel_predict_in_range_amended (data : List (ℕ × ℕ)) (key : ℕ)
    (hmem : key ∈ data.map Prod.fst)
    (hc : (RadixModel_new data).1 ≤ 63) (hb : 1 ≤ (RadixModel_new data).2) :
    ∃ v, RadixModel_predict_to_int (RadixModel_new data) key = some v ∧
      v < 2 ^ (RadixModel_new data).2 := by
  have hb64 := radixModel_bits_le data
  unfold RadixModel_predict_to_int
  rw [if_neg (by omega), if_neg (by omega)]
  refine ⟨_, rfl, ?_⟩
  rw [Nat.shiftRight_eq_div_pow]
  rw [Nat.div_lt_iff_lt_mul (by positivity)]
  calc (key <<< (RadixModel_new data).1) % 2 ^ 64 < 2 ^ 64 := Nat.mod_lt _ (by positivity)
  _ = 2 ^ (RadixModel_new data).2 * 2 ^ (64 - (RadixModel_new data).2) := by
      rw [← pow_add]
      congr 1
      omega

/-- Witness for the amended C8 on the two-key dataset
`[(1, 1), (2^63, 2)]` (prefix 0, bits 2) at key 1. -/
theorem radixModel_predict_in_range_amended_witness :
    ((1 : ℕ) ∈ ([((1 : ℕ), (1 : ℕ)), (2 ^ 63, 2)] : List (ℕ × ℕ)).map Prod.fst ∧
      (RadixModel_new [(1, 1), (2 ^ 63, 2)]).1 ≤ 63 ∧
      1 ≤ (RadixModel_new [(1, 1), (2 ^ 63, 2)]).2) ∧
    ∃ v, RadixModel_predict_to_int (RadixModel_new [(1, 1), (2 ^ 63, 2)]) 1 = some v ∧
      v < 2 ^ (RadixModel_new [(1, 1), (2 ^ 63, 2)]).2 :=
  ⟨⟨by decide, by decide, by decide⟩,
    radixModel_predict_in_range_amended [(1, 1), (2 ^ 63, 2)] 1 (by decide) (by decide)
      (by decide)⟩

/-! ## Claim C3 -/

/-- `relu` vanishes on non-positive inputs. -/
theorem relu_nonpos {x : ℚ} (h : x ≤ 0) : relu x = 0 := by
  unfold relu
  split
  · rfl
  · next hx => linarith [not_lt.mp hx]

/-- `relu` is the identity on non-negative inputs. -/
theorem relu_of_nonneg {x : ℚ} (h : 0 ≤ x) : relu x = x := by
  unfold relu
  rw [if_neg (not_lt.mpr h)]

/-- `relu` commutes with scaling by a non-negative constant. -/
theorem relu_const_mul (c x : ℚ) (hc : 0 ≤ c) : relu (c * x) = c * relu x := by
  unfold relu
  split_ifs with h1 h2 h2
  · simp
  · nlinarith [not_lt.mp h2]
  · nlinarith [not_lt.mp h1]
  · rfl

/-- A hidden unit produced by the training loop for a pair with slope
`s`, previous slope `p` and left key `x1` contributes exactly
`(s - p) * relu(t - x1)`, whatever the sign branch chose. -/
theorem unitVal_step (t x1 p s : ℚ) :
    unitVal t (|s - p|, -(x1 * |s - p|), if p < s then (1 : ℚ) else -1)
      = (s - p) * relu (t - x1) := by
  unfold unitVal
  dsimp only
  rw [show t * |s - p| + -(x1 * |s - p|) = |s - p| * (t - x1) from by ring,
    relu_const_mul _ _ (abs_nonneg _)]
  rcases lt_trichotomy p s with h | h | h
  · rw [if_pos h, abs_of_pos (show (0 : ℚ) < s - p from by linarith)]
    ring
  · rw [h]
    simp
  · rw [if_neg (not_lt.mpr (le_of_lt h)), abs_of_neg (show s - p < (0 : ℚ) from by linarith)]
    ring

/-- `NN::inference` on a network assembled from a unit list is the sum
of the units' contributions plus the output bias. -/
theorem inference_units (units : List (ℚ × ℚ × ℚ)) (b t : ℚ) :
    NN.inference
      ⟨units.map (fun u => u.1), units.map (fun u => u.2.2), units.map (fun u => u.2.1), b⟩ t
      = (units.map (unitVal t)).sum + b := by
  unfold NN.inference
  dsimp only
  rw [List.zip_map', List.map_map, List.zip_map', List.map_map]
  congr 1
  congr 1
  refine List.map_congr_left (fun u _ => ?_)
  simp only [Function.comp_apply, unitVal]
  ring

/-- The summed contributions of the units trained on the consecutive
pairs of a breakpoint list equal the kink sum of that list. -/
theorem trainPairs_sum (t : ℚ) :
    ∀ (l : List (ℚ × ℕ)) (p : ℚ),
      ((trainPairs p (l.zip l.tail)).map (unitVal t)).sum = kinkSum p l t := by
  intro l
  induction l with
  | nil => intro p; rfl
  | cons a l ih =>
    cases l with
    | nil => intro p; rfl
    | cons b rest =>
      intro p
      show ((trainPairs p ((a, b) :: (b :: rest).zip rest)).map (unitVal t)).sum = _
      rw [trainPairs]
      dsimp only [List.map_cons, List.sum_cons]
      rw [unitVal_step]
      show _ = (slopeOf a b - p) * relu (t - a.1) + kinkSum (slopeOf a b) (b :: rest) t
      congr 1
      exact ih (slopeOf a b)

/-- To the left of all breakpoints every kink is inactive. -/
theorem kinkSum_eq_zero (t : ℚ) :
    ∀ (l : List (ℚ × ℕ)) (p : ℚ), (∀ e ∈ l, t ≤ e.1) → kinkSum p l t = 0 := by
  intro l
  induction l with
  | nil => intro p _; rfl
  | cons a l ih =>
    cases l with
    | nil => intro p _; rfl
    | cons b rest =>
      intro p hle
      show (slopeOf a b - p) * relu (t - a.1) + kinkSum (slopeOf a b) (b :: rest) t = 0
      rw [relu_nonpos (show t - a.1 ≤ 0 from by
          have := hle a (List.mem_cons_self a _); linarith),
        ih (slopeOf a b) (fun e he => hle e (List.mem_cons_of_mem _ he))]
      ring

/-- The telescoping evaluation of the kink sum at any breakpoint of the
list it was built from: with initial previous slope `p`, the sum at the
`k`-th breakpoint key is `y_k - y_0 - p * (x_k - x_0)`. -/
theorem kinkSum_interp :
    ∀ (l : List (ℚ × ℕ)) (a : ℚ × ℕ),
      (a :: l).Pairwise (fun u v => u.1 < v.1) →
      ∀ (p : ℚ) (k : ℕ) (hk : k < (a :: l).length),
        kinkSum p (a :: l) (((a :: l).get ⟨k, hk⟩).1)
          = ((((a :: l).get ⟨k, hk⟩).2 : ℚ)) - (a.2 : ℚ)
            - p * ((((a :: l).get ⟨k, hk⟩).1) - a.1) := by
  intro l
  induction l with
  | nil =>
    intro a _ p k hk
    have hk0 : k = 0 := by
      have := hk
      simp at this
      omega
    subst hk0
    show (0 : ℚ) = (a.2 : ℚ) - (a.2 : ℚ) - p * (a.1 - a.1)
    ring
  | cons b rest ih =>
    intro a hpair p k hk
    cases k with
    | zero =>
      show (slopeOf a b - p) * relu (a.1 - a.1) + kinkSum (slopeOf a b) (b :: rest) a.1
        = (a.2 : ℚ) - (a.2 : ℚ) - p * (a.1 - a.1)
      rw [show a.1 - a.1 = (0 : ℚ) from by ring, relu_nonpos (le_refl (0 : ℚ)),
        kinkSum_eq_zero _ _ (slopeOf a b)
          (fun e he => le_of_lt ((List.pairwise_cons.mp hpair).1 e he))]
      ring
    | succ j =>
      have hj : j < (b :: rest).length := by
        have := hk
        simp at this ⊢
        omega
      show (slopeOf a b - p) * relu (((b :: rest).get ⟨j, hj⟩).1 - a.1)
          + kinkSum (slopeOf a b) (b :: rest) (((b :: rest).get ⟨j, hj⟩).1)
        = ((((b :: rest).get ⟨j, hj⟩).2 : ℚ)) - (a.2 : ℚ)
          - p * ((((b :: rest).get ⟨j, hj⟩).1) - a.1)
      have hmem : (b :: rest).get ⟨j, hj⟩ ∈ b :: rest := List.get_mem _ _ _
      have hax : a.1 < ((b :: rest).get ⟨j, hj⟩).1 := (List.pairwise_cons.mp hpair).1 _ hmem
      rw [relu_of_nonneg (show (0 : ℚ) ≤ ((b :: rest).get ⟨j, hj⟩).1 - a.1 from by linarith)]
      rw [ih b (List.pairwise_cons.mp hpair).2 (slopeOf a b) j hj]
      have hab : a.1 < b.1 :=
        (List.pairwise_cons.mp hpair).1 b (List.mem_cons_self b rest)
      have hne : b.1 - a.1 ≠ 0 := sub_ne_zero.mpr (ne_of_gt hab)
      have hs : slopeOf a b * (b.1 - a.1) = (b.2 : ℚ) - (a.2 : ℚ) := by
        unfold slopeOf
        exact div_mul_cancel₀ _ hne
      linear_combination hs

/-- Indexing commutes with `dropLast` on in-range indices. -/
theorem getD_dropLast_eq (l : List (ℚ × ℕ)) (k : ℕ) (hk : k < l.dropLast.length) :
    l.dropLast.getD k (0, 0) = l.getD k (0, 0) := by
  have hk2 : k < l.length := by
    have := List.length_dropLast l
    omega
  rw [List.getD_eq_getElem _ _ hk, List.getD_eq_getElem _ _ hk2, List.getElem_dropLast]

/-- C3 is false as stated: the two breakpoints `(0, 0), (1, 1)` have
strictly increasing keys, yet inference at the last breakpoint's key
returns `0`, not `1` — `NN::train` never processes the final breakpoint
pair, so the corrector is not an interpolant at the last breakpoint.
All quantities are small integers, so exact rational arithmetic
coincides with `f64` arithmetic: the discrepancy is not a rounding
artifact. -/
theorem nn_last_breakpoint_counterexample :
    exC3.Pairwise (fun u v => u.1 < v.1) ∧ 2 ≤ exC3.length ∧
    (NN.train exC3).inference ((exC3.getD 1 (0, 0)).1) ≠ ((exC3.getD 1 (0, 0)).2 : ℚ) := by
  refine ⟨by decide, by decide, ?_⟩
  simp [NN.train, NN.inference, exC3, trainPairs]

/-- C3 (amended): for a corrector trained on at least 2 breakpoints
with strictly increasing keys, inference at each breakpoint's key
*except the last one* returns that breakpoint's position exactly (in
exact arithmetic); at the last breakpoint the prediction extrapolates
the second-to-last segment instead. -/
theorem nn_inference_interpolates_except_last (ds : List (ℚ × ℕ))
    (hsort : ds.Pairwise (fun u v => u.1 < v.1)) (hlen : 2 ≤ ds.length)
    (k : ℕ) (hk : k < ds.length - 1) :
    (NN.train ds).inference ((ds.getD k (0, 0)).1) = ((ds.getD k (0, 0)).2 : ℚ) := by
  cases ds with
  | nil => simp at hlen
  | cons d0 ds1 =>
    cases ds1 with
    | nil => simp at hlen
    | cons d1 rest =>
      have hkp : k < (d0 :: (d1 :: rest).dropLast).length := by
        simp only [List.length_cons, List.length_dropLast] at hk ⊢
        omega
      have htr : ∀ t : ℚ,
          (NN.train (d0 :: d1 :: rest)).inference t
            = kinkSum 0 (d0 :: (d1 :: rest).dropLast) t + (d0.2 : ℚ) := by
        intro t
        unfold NN.train
        dsimp only
        rw [inference_units, trainPairs_sum, List.dropLast_cons₂]
        simp
      have hcomb : (d0 :: (d1 :: rest).dropLast).get ⟨k, hkp⟩
          = (d0 :: d1 :: rest).getD k (0, 0) := by
        rw [List.get_eq_getElem, ← List.getD_eq_getElem _ (0, 0) hkp]
        rw [← List.dropLast_cons₂]
        exact getD_dropLast_eq _ k (by rw [List.dropLast_cons₂]; exact hkp)
      have hpair : (d0 :: (d1 :: rest).dropLast).Pairwise (fun u v => u.1 < v.1) := by
        rw [← List.dropLast_cons₂]
        exact List.Pairwise.sublist (List.dropLast_sublist _) hsort
      rw [htr, ← hcomb, kinkSum_interp ((d1 :: rest).dropLast) d0 hpair 0 k hkp]
      ring

/-- Witness for the amended C3 on the three breakpoints
`(0,0), (1,1), (3,2)` at the middle breakpoint. -/
theorem nn_inference_interpolates_except_last_witness :
    (([(0, 0), (1, 1), (3, 2)] : List (ℚ × ℕ)).Pairwise (fun u v => u.1 < v.1) ∧
      2 ≤ ([(0, 0), (1, 1), (3, 2)] : List (ℚ × ℕ)).length ∧
      1 < ([(0, 0), (1, 1), (3, 2)] : List (ℚ × ℕ)).length - 1) ∧
    (NN.train [(0, 0), (1, 1), (3, 2)]).inference
        ((([(0, 0), (1, 1), (3, 2)] : List (ℚ × ℕ)).getD 1 (0, 0)).1)
      = ((([(0, 0), (1, 1), (3, 2)] : List (ℚ × ℕ)).getD 1 (0, 0)).2 : ℚ) :=
  ⟨⟨by decide, by decide, by decide⟩,
    nn_inference_interpolates_except_last [(0, 0), (1, 1), (3, 2)] (by decide) (by decide) 1
      (by decide)⟩

/-! ## Claim C5 -/

/-- A dispatcher whose correctors are all untrained predicts 0 for
every key. -/
theorem predict_replicate_zero (pb me k : ℕ) (h1 : 1 ≤ pb) :
    LearnedFIB.predict_to_float ⟨pb, List.replicate (2 ^ pb - 1) NN.new, me⟩ k = 0 := by
  unfold LearnedFIB.predict_to_float
  rw [clip_zero]
  dsimp only
  rw [replicate_get0 pb h1]
  simp [NN.inference_new]

/-- The code's natural-number running maximum agrees, after casting,
with the rational brute-force maximum of `|0 - position|`, provided
every position fits in a `u64`. -/
theorem cast_fold (l : List (ℕ × ℕ)) (hv : ∀ e ∈ l, e.2 < 2 ^ 64) :
    ∀ acc : ℕ,
      ((l.foldl (fun acc e => if acc < min e.2 (2 ^ 64 - 1) then min e.2 (2 ^ 64 - 1) else acc)
          acc : ℕ) : ℚ) =
        l.foldl (fun acc e => max acc |(0 : ℚ) - (e.2 : ℚ)|) (acc : ℚ) := by
  induction l with
  | nil => intro acc; simp
  | cons e l ih =>
    intro acc
    have he : e.2 < 2 ^ 64 := hv e (List.mem_cons_self e l)
    have hmin : min e.2 (2 ^ 64 - 1) = e.2 := by omega
    simp only [List.foldl_cons, hmin]
    rw [ih (fun x hx => hv x (List.mem_cons_of_mem e hx))]
    congr 1
    have habs : |(0 : ℚ) - (e.2 : ℚ)| = (e.2 : ℚ) := by
      rw [zero_sub, abs_neg, abs_of_nonneg (Nat.cast_nonneg e.2)]
    rw [habs]
    have hmax : (if acc < e.2 then e.2 else acc) = max acc e.2 := by
      split <;> omega
    rw [hmax, Nat.cast_max]

/-- C5: after training with any prefix width in `[1, 63]` on positions
that fit in a `u64`, the constructed dispatcher's `error_bound()`
reports `Some(max_error)`, and `max_error` equals exactly the
brute-force maximum absolute difference `|predicted - position|` over
the full training set, where each entry is predicted through the same
`clip` dispatch and corrector inference as `predict_to_float`. -/
theorem error_bound_eq_brute_force (data : List (ℕ × ℕ)) (t : ℚ) (pb : ℕ)
    (h1 : 1 ≤ pb) (h63 : pb ≤ 63) (hv : ∀ e ∈ data, e.2 < 2 ^ 64) :
    ∃ m, LearnedFIB.new data t pb = some m ∧
      m.error_bound = some m.max_error ∧ (m.max_error : ℚ) = bruteMaxError m data := by
  refine ⟨_, LearnedFIB.new_eq data t pb h1, rfl, ?_⟩
  unfold bruteMaxError
  simp only [predict_replicate_zero _ _ _ h1]
  exact cast_fold data hv 0

/-- Witness for C5 on the dataset `[(1, 5), (2, 3)]` with threshold 64
and prefix 1 (both maxima are 5). -/
theorem error_bound_eq_brute_force_witness :
    (1 ≤ 1 ∧ 1 ≤ 63 ∧ ∀ e ∈ [((1 : ℕ), (5 : ℕ)), (2, 3)], e.2 < 2 ^ 64) ∧
    ∃ m, LearnedFIB.new [(1, 5), (2, 3)] 64 1 = some m ∧
      m.error_bound = some m.max_error ∧ (m.max_error : ℚ) = bruteMaxError m [(1, 5), (2, 3)] :=
  ⟨⟨by decide, by decide, by decide⟩,
    error_bound_eq_brute_force [(1, 5), (2, 3)] 64 1 (by decide) (by decide) (by decide)⟩

/-! ## Claim C9 -/

/-- `NN::save` never succeeds: its handle is read-only and the final
`bias2` write is unconditional, so there is always at least one failing
write whose `Err` is propagated. -/
theorem nn_save_err (nn : NN) : nn.save = none := by
  unfold NN.save
  cases h : nn.saveRecords with
  | nil =>
    have hne : nn.saveRecords ≠ [] := by simp [NN.saveRecords]
    exact absurd h hne
  | cons a l => rfl

/-- An out-of-bounds panic aborts the rest of the save loop. -/
theorem saveFold_oobPanic (nets : List NN) (i : ℕ) :
    ∀ l : List ℕ, l.foldl (saveStep nets) (SaveResult.oobPanic i) = SaveResult.oobPanic i := by
  intro l
  induction l with
  | nil => rfl
  | cons a l ih =>
    rw [List.foldl_cons]
    exact ih

/-- A propagated I/O error aborts the rest of the save loop. -/
theorem saveFold_ioError (nets : List NN) (i : ℕ) :
    ∀ l : List ℕ, l.foldl (saveStep nets) (SaveResult.ioError i) = SaveResult.ioError i := by
  intro l
  induction l with
  | nil => rfl
  | cons a l ih =>
    rw [List.foldl_cons]
    exact ih

/-- C9 is false as stated: on the model trained from `[(1, 0)]` with
prefix 1, `save` does not panic with an out-of-bounds index at all — at
`i = 0` the corrector exists, but `NN::save` writes through the
read-only handle obtained from `File::open`, so `save` returns that
propagated I/O error before the loop can ever reach the out-of-bounds
final index `2 ^ prefix - 1`. -/
theorem learnedFIB_save_no_oob_counterexample :
    ∃ m, LearnedFIB.new [(1, 0)] 64 1 = some m ∧
      m.save = SaveResult.ioError 0 ∧ ∀ i, m.save ≠ SaveResult.oobPanic i := by
  have hgen : ∀ x : ℕ,
      LearnedFIB.save ⟨1, List.replicate (2 ^ 1 - 1) NN.new, x⟩ = SaveResult.ioError 0 :=
    fun x => rfl
  refine ⟨_, LearnedFIB.new_eq [(1, 0)] 64 1 (by decide), hgen _, fun i hi => ?_⟩
  rw [hgen _] at hi
  exact SaveResult.noConfusion hi

/-- C9 (amended): saving a successfully trained `LearnedFIB` never
completes, but not by the claimed mechanism: for every trained model
with `prefix ≥ 1`, the loop fails already at bucket 0 with the I/O
error `NN::save` produces by writing through its read-only
`File::open` handle, and the out-of-bounds final index is never
reached; only the `prefix = 0` model (constructible only from empty
data, with zero correctors) panics out of bounds, at index 0. -/
theorem learnedFIB_save_never_succeeds (data : List (ℕ × ℕ)) (t : ℚ) (pb : ℕ)
    (m : LearnedFIB) (hm : LearnedFIB.new data t pb = some m) :
    (∀ files, m.save ≠ SaveResult.ok files) ∧
    (1 ≤ pb → m.save = SaveResult.ioError 0) ∧
    (pb = 0 → m.save = SaveResult.oobPanic 0) := by
  obtain ⟨hpb, hnets⟩ := new_shape data t pb m hm
  have hsave : m.save = if pb = 0 then SaveResult.oobPanic 0 else SaveResult.ioError 0 := by
    unfold LearnedFIB.save
    rw [hpb, hnets]
    rcases Nat.eq_zero_or_pos pb with rfl | hpos
    · rw [if_pos rfl]
      rfl
    · rw [if_neg (by omega)]
      obtain ⟨rest, hrest⟩ : ∃ rest, List.range (1 <<< pb) = 0 :: rest := by
        rw [show (1 <<< pb) = 2 ^ pb from by simp [Nat.shiftLeft_eq]]
        obtain ⟨k, hk⟩ : ∃ k, 2 ^ pb = k + 1 := by
          have := Nat.pos_pow_of_pos pb (show 0 < 2 by decide)
          exact ⟨2 ^ pb - 1, by omega⟩
        exact ⟨(List.range k).map Nat.succ, by rw [hk, List.range_succ_eq_map]⟩
      rw [hrest, List.foldl_cons]
      have hstep0 : saveStep (List.replicate (2 ^ pb - 1) NN.new) (SaveResult.ok []) 0
          = SaveResult.ioError 0 := by
        unfold saveStep
        rw [replicate_get0 pb hpos]
        dsimp only
        rw [nn_save_err]
      rw [hstep0]
      exact saveFold_ioError _ 0 rest
  refine ⟨?_, ?_, ?_⟩
  · intro files h
    rw [hsave] at h
    rcases Nat.eq_zero_or_pos pb with rfl | hpos
    · rw [if_pos rfl] at h
      exact SaveResult.noConfusion h
    · rw [if_neg (by omega)] at h
      exact SaveResult.noConfusion h
  · intro h1
    rw [hsave, if_neg (by omega)]
  · intro h0
    rw [hsave, if_pos h0]

/-- Witness for the amended C9 on the dispatcher trained from
`[(1, 0)]` with prefix 1. -/
theorem learnedFIB_save_never_succeeds_witness :
    ∃ m, LearnedFIB.new [(1, 0)] 64 1 = some m ∧
      (∀ files, m.save ≠ SaveResult.ok files) ∧ m.save = SaveResult.ioError 0 :=
  ⟨_, LearnedFIB.new_eq [(1, 0)] 64 1 (by decide),
    (learnedFIB_save_never_succeeds [(1, 0)] 64 1 _
      (LearnedFIB.new_eq [(1, 0)] 64 1 (by decide))).1,
    (learnedFIB_save_never_succeeds [(1, 0)] 64 1 _
      (LearnedFIB.new_eq [(1, 0)] 64 1 (by decide))).2.1 (by decide)⟩

theorem getD_set_self (l : List ℕ) (i y : ℕ) (h : i < l.length) :
    (l.set i y).getD i 0 = y := by
  rw [List.getD_eq_getElem?_getD, List.getElem?_set_self h]
  rfl

theorem getD_set_ne (l : List ℕ) (i j y : ℕ) (h : i ≠ j) :
    (l.set i y).getD j 0 = l.getD j 0 := by
  rw [List.getD_eq_getElem?_getD, List.getD_eq_getElem?_getD, List.getElem?_set_ne h]

theorem backfill_length (y : ℕ) : ∀ (cnt lo : ℕ) (tbl : List ℕ),
    (backfill y tbl lo cnt).length = tbl.length := by
  intro cnt
  induction cnt with
  | zero => intro lo tbl; rfl
  | succ n ih =>
    intro lo tbl
    unfold backfill at *
    rw [List.range'_succ, List.foldl_cons, ih (lo + 1) (tbl.set lo y), List.length_set]

theorem backfill_getD (y : ℕ) : ∀ (cnt lo i : ℕ) (tbl : List ℕ),
    (backfill y tbl lo cnt).getD i 0 =
      if lo ≤ i ∧ i < lo + cnt ∧ i < tbl.length then y else tbl.getD i 0 := by
  intro cnt
  induction cnt with
  | zero =>
    intro lo i tbl
    rw [if_neg (by omega)]
    rfl
  | succ n ih =>
    intro lo i tbl
    have hstep : backfill y tbl lo (n + 1) = backfill y (tbl.set lo y) (lo + 1) n := by
      unfold backfill
      rw [List.range'_succ, List.foldl_cons]
    rw [hstep, ih (lo + 1) i (tbl.set lo y), List.length_set]
    rcases eq_or_ne i lo with rfl | hne
    · rw [if_neg (by omega)]
      rcases lt_or_ge i tbl.length with hlt | hge
      · rw [getD_set_self _ _ _ hlt, if_pos ⟨le_refl i, by omega, hlt⟩]
      · rw [List.set_eq_of_length_le hge, if_neg (by omega)]
    · rw [getD_set_ne _ _ _ _ (Ne.symm hne)]
      exact if_congr (by omega) rfl rfl

theorem radixOf_eq (p bits x : ℕ) (hp : p ≤ 64) :
    radixOf p bits x = x % 2 ^ (64 - p) / 2 ^ (64 - (p + bits)) := by
  unfold radixOf
  rw [Nat.shiftLeft_eq, Nat.shiftRight_eq_div_pow, Nat.shiftRight_eq_div_pow]
  have h64 : (2 : ℕ) ^ 64 = 2 ^ (64 - p) * 2 ^ p := by
    rw [← pow_add]
    congr 1
    omega
  rw [h64, Nat.mul_mod_mul_right, Nat.mul_div_cancel _ (by positivity)]

theorem radixOf_lt (p bits x : ℕ) (hpb : p + bits ≤ 64) : radixOf p bits x < 2 ^ bits := by
  rw [radixOf_eq p bits x (by omega)]
  rw [Nat.div_lt_iff_lt_mul (by positivity)]
  calc x % 2 ^ (64 - p) < 2 ^ (64 - p) := Nat.mod_lt _ (by positivity)
  _ = 2 ^ bits * 2 ^ (64 - (p + bits)) := by
      rw [← pow_add]
      congr 1
      omega

theorem radixOf_mono (p bits a b : ℕ) (hp : p ≤ 64) (hab : a ≤ b)
    (hdiv : a / 2 ^ (64 - p) = b / 2 ^ (64 - p)) :
    radixOf p bits a ≤ radixOf p bits b := by
  rw [radixOf_eq _ _ _ hp, radixOf_eq _ _ _ hp]
  apply Nat.div_le_div_right
  have h1 := Nat.div_add_mod a (2 ^ (64 - p))
  have h2 := Nat.div_add_mod b (2 ^ (64 - p))
  rw [← hdiv] at h2
  omega

theorem commonPrefixSize_shares (data : List (ℕ × ℕ)) (hk64 : ∀ e ∈ data, e.1 < 2 ^ 64) :
    sharesTop (data.map Prod.fst) (commonPrefixSize data) = true := by
  have h0 : sharesTop (data.map Prod.fst) 0 = true := by
    unfold sharesTop
    cases hmap : data.map Prod.fst with
    | nil => rfl
    | cons k ks =>
      rw [List.all_eq_true]
      intro x hx
      have hxmem : x ∈ data.map Prod.fst := by
        rw [hmap]
        exact List.mem_cons_of_mem _ hx
      have hkmem : k ∈ data.map Prod.fst := by
        rw [hmap]
        exact List.mem_cons_self _ _
      obtain ⟨ex, hex, hx1⟩ := List.mem_map.mp hxmem
      obtain ⟨ek, hek, hk1⟩ := List.mem_map.mp hkmem
      have hxlt : x < 2 ^ 64 := hx1 ▸ hk64 ex hex
      have hklt : k < 2 ^ 64 := hk1 ▸ hk64 ek hek
      have hxz : x >>> (64 - 0) = 0 := by
        rw [Nat.shiftRight_eq_div_pow]
        exact Nat.div_eq_of_lt (by simpa using hxlt)
      have hkz : k >>> (64 - 0) = 0 := by
        rw [Nat.shiftRight_eq_div_pow]
        exact Nat.div_eq_of_lt (by simpa using hklt)
      rw [hxz, hkz]
      rfl
  unfold commonPrefixSize
  exact @Nat.findGreatest_spec 0 (fun p => sharesTop (data.map Prod.fst) p = true) _ 64
    (Nat.zero_le 64) h0

theorem cps_div_eq (data : List (ℕ × ℕ)) (hk64 : ∀ e ∈ data, e.1 < 2 ^ 64)
    (x : ℕ) (hx : x ∈ data.map Prod.fst) (y : ℕ) (hy : y ∈ data.map Prod.fst) :
    x / 2 ^ (64 - commonPrefixSize data) = y / 2 ^ (64 - commonPrefixSize data) := by
  have hst := commonPrefixSize_shares data hk64
  unfold sharesTop at hst
  cases hmap : data.map Prod.fst with
  | nil =>
    rw [hmap] at hx
    exact absurd hx (List.not_mem_nil x)
  | cons k ks =>
    rw [hmap] at hst hx hy
    have hagree : ∀ z ∈ k :: ks,
        z >>> (64 - commonPrefixSize data) = k >>> (64 - commonPrefixSize data) := by
      intro z hz
      rcases List.mem_cons.mp hz with rfl | hz'
      · rfl
      · have := (List.all_eq_true.mp hst) z hz'
        exact beq_iff_eq.mp this
    have h1 := hagree x hx
    have h2 := hagree y hy
    rw [Nat.shiftRight_eq_div_pow, Nat.shiftRight_eq_div_pow] at h1 h2
    rw [h1, h2]

theorem cps_le_64 (data : List (ℕ × ℕ)) : commonPrefixSize data ≤ 64 :=
  Nat.findGreatest_le 64

theorem getD_fst_mem (data : List (ℕ × ℕ)) (i : ℕ) (hi : i < data.length) :
    (data.getD i (0, 0)).1 ∈ data.map Prod.fst := by
  rw [List.getD_eq_getElem _ _ hi]
  exact List.mem_map_of_mem _ (List.getElem_mem hi)

theorem rad_mono (data : List (ℕ × ℕ)) (bits : ℕ) (hk64 : ∀ e ∈ data, e.1 < 2 ^ 64)
    (hsort : (data.map Prod.fst).Pairwise (fun a b => a ≤ b)) :
    ∀ i j, i ≤ j → j < data.length →
      radixOf (commonPrefixSize data) bits ((data.getD i (0, 0)).1)
        ≤ radixOf (commonPrefixSize data) bits ((data.getD j (0, 0)).1) := by
  intro i j hij hj
  rcases Nat.eq_or_lt_of_le hij with rfl | hlt
  · exact le_refl _
  · have hi : i < data.length := lt_trans hlt hj
    have hkey : (data.getD i (0, 0)).1 ≤ (data.getD j (0, 0)).1 := by
      have hil : i < (data.map Prod.fst).length := by
        rw [List.length_map]
        exact hi
      have hjl : j < (data.map Prod.fst).length := by
        rw [List.length_map]
        exact hj
      have hp := List.pairwise_iff_get.mp hsort ⟨i, hil⟩ ⟨j, hjl⟩ hlt
      rw [List.getD_eq_getElem _ _ hi, List.getD_eq_getElem _ _ hj]
      simpa using hp
    exact radixOf_mono _ _ _ _ (cps_le_64 data) hkey
      (cps_div_eq data hk64 _ (getD_fst_mem data i hi) _ (getD_fst_mem data j hj))

theorem findIdx_eq_of (P : (ℕ × ℕ) → Bool) :
    ∀ (data : List (ℕ × ℕ)) (j : ℕ), j < data.length →
      (∀ i, i < j → P (data.getD i (0, 0)) = false) → P (data.getD j (0, 0)) = true →
      data.findIdx P = j := by
  intro data
  induction data with
  | nil =>
    intro j hj
    simp at hj
  | cons a l ih =>
    intro j hj hfalse htrue
    cases j with
    | zero =>
      rw [List.findIdx_cons]
      have : P a = true := htrue
      rw [this]
      rfl
    | succ n =>
      have hPa : P a = false := hfalse 0 (by omega)
      rw [List.findIdx_cons, hPa]
      show List.findIdx P l + 1 = n + 1
      rw [ih n (by simpa using hj) (fun i hi => hfalse (i + 1) (by omega)) htrue]

theorem scanStep_inv (data : List (ℕ × ℕ)) (p bits j : ℕ) (st : List ℕ × ℕ)
    (hpb : p + bits ≤ 64)
    (hmono : ∀ i k, i ≤ k → k < data.length →
      radixOf p bits ((data.getD i (0, 0)).1) ≤ radixOf p bits ((data.getD k (0, 0)).1))
    (hpos : ∀ i, i < data.length → (data.getD i (0, 0)).2 = i)
    (hlen32 : data.length ≤ 2 ^ 32)
    (hj : j < data.length)
    (hinv : ScanInv data p bits j st) :
    ScanInv data p bits (j + 1) (tableScanStep p bits st (data.getD j (0, 0))) := by
  obtain ⟨h1, h20, h2, h3, h4, h6, h5⟩ := hinv
  have hej : (data.getD j (0, 0)).2 = j := hpos j hj
  unfold tableScanStep
  dsimp only
  by_cases hc : radixOf p bits ((data.getD j (0, 0)).1) = st.2
  · rw [if_pos hc]
    refine ⟨h1, by omega, ?_, h3, ?_, h6, ?_⟩
    · intro _
      have hj1 : j + 1 - 1 = j := by omega
      rw [hj1]
      exact hc.symm
    · intro v hv
      exact le_trans (h4 v hv) (by omega)
    · rintro v hv ⟨i, hi, hri⟩
      rcases Nat.lt_succ_iff_lt_or_eq.mp hi with hi' | rfl
      · exact h5 v hv ⟨i, hi', hri⟩
      · rcases Nat.eq_zero_or_pos i with rfl | hipos
        · rw [h20 rfl] at hc
          omega
        · refine h5 v hv ⟨i - 1, by omega, ?_⟩
          rw [← h2 hipos, ← hc]
          exact hri
  · rw [if_neg hc]
    have hcur_lt : radixOf p bits ((data.getD j (0, 0)).1) < 2 ^ bits :=
      radixOf_lt p bits _ hpb
    have hlast_lt : st.2 < radixOf p bits ((data.getD j (0, 0)).1) := by
      rcases Nat.eq_zero_or_pos j with rfl | hjpos
      · rw [h20 rfl]
        omega
      · have hm := hmono (j - 1) j (by omega) hj
        rw [← h2 hjpos] at hm
        omega
    have hyj : u32cast ((data.getD j (0, 0)).2) = j := by
      rw [hej]
      unfold u32cast
      exact Nat.mod_eq_of_lt (by omega)
    rw [hyj]
    have hT : ∀ i,
        (backfill j (st.1.set (radixOf p bits ((data.getD j (0, 0)).1)) j) (st.2 + 1)
          (radixOf p bits ((data.getD j (0, 0)).1) - (st.2 + 1))).getD i 0 =
          if st.2 + 1 ≤ i ∧ i ≤ radixOf p bits ((data.getD j (0, 0)).1) then j
          else st.1.getD i 0 := by
      intro i
      rw [backfill_getD, List.length_set, h1]
      by_cases hin : st.2 + 1 ≤ i ∧ i ≤ radixOf p bits ((data.getD j (0, 0)).1)
      · rcases eq_or_lt_of_le hin.2 with heq | hlt2
        · rw [if_neg (by omega), if_pos hin, heq]
          exact getD_set_self _ _ _ (by omega)
        · rw [if_pos ⟨hin.1, by omega, by omega⟩, if_pos hin]
      · rw [if_neg (by omega), if_neg hin]
        exact getD_set_ne _ _ _ _ (by omega)
    refine ⟨?_, by omega, ?_, ?_, ?_, ?_, ?_⟩
    · show (backfill _ _ _ _).length = 2 ^ bits
      rw [backfill_length, List.length_set, h1]
    · intro _
      have hj1 : j + 1 - 1 = j := by omega
      rw [hj1]
    · intro w v hwv hv
      show (backfill _ _ _ _).getD w 0 ≤ (backfill _ _ _ _).getD v 0
      rw [hT w, hT v]
      by_cases hvz : st.2 + 1 ≤ v ∧ v ≤ radixOf p bits ((data.getD j (0, 0)).1)
      · rw [if_pos hvz]
        by_cases hwz : st.2 + 1 ≤ w ∧ w ≤ radixOf p bits ((data.getD j (0, 0)).1)
        · rw [if_pos hwz]
        · rw [if_neg hwz]
          exact h4 w (by omega)
      · rw [if_neg hvz]
        have hws : ¬(st.2 + 1 ≤ w ∧ w ≤ radixOf p bits ((data.getD j (0, 0)).1)) := by omega
        rw [if_neg hws]
        exact h3 w v hwv (by omega)
    · intro v hv
      show (backfill _ _ _ _).getD v 0 ≤ j + 1
      rw [hT v]
      by_cases hvz : st.2 + 1 ≤ v ∧ v ≤ radixOf p bits ((data.getD j (0, 0)).1)
      · rw [if_pos hvz]
        omega
      · rw [if_neg hvz]
        exact le_trans (h4 v (by omega)) (by omega)
    · show (backfill _ _ _ _).getD 0 0 = 0
      rw [hT 0, if_neg (by omega)]
      exact h6
    · rintro v hv ⟨i, hi, hri⟩
      show (backfill _ _ _ _).getD v 0 = _
      rw [hT v]
      rcases Nat.lt_succ_iff_lt_or_eq.mp hi with hi' | rfl
      · have hvle : v ≤ st.2 := by
          have hjpos : 0 < j := by omega
          rw [h2 hjpos]
          rw [← hri]
          exact hmono i (j - 1) (by omega) (by omega)
        rw [if_neg (by omega)]
        exact h5 v hv ⟨i, hi', hri⟩
      · subst hri
        rw [if_pos ⟨by omega, le_refl _⟩]
        refine (findIdx_eq_of _ data i hj ?_ ?_).symm
        · intro i' hi'
          refine beq_eq_false_iff_ne.mpr ?_
          have hle : radixOf p bits ((data.getD i' (0, 0)).1) ≤ st.2 := by
            have hipos : 0 < i := by omega
            rw [h2 hipos]
            exact hmono i' (i - 1) (by omega) (by omega)
          omega
        · exact beq_iff_eq.mpr rfl

theorem replicate_getD (n i : ℕ) : (List.replicate n (0 : ℕ)).getD i 0 = 0 := by
  rw [List.getD_eq_getElem?_getD]
  rcases lt_or_ge i n with h | h
  · rw [List.getElem?_eq_getElem (by simpa using h)]
    simp
  · rw [List.getElem?_eq_none (by simpa using h)]
    rfl

theorem scanInv_base (data : List (ℕ × ℕ)) (p bits : ℕ) :
    ScanInv data p bits 0 (List.replicate (2 ^ bits) 0, 0) := by
  refine ⟨by simp, fun _ => rfl, by omega, ?_, ?_, replicate_getD _ 0, ?_⟩
  · intro w v _ _
    rw [replicate_getD, replicate_getD]
  · intro v _
    rw [replicate_getD]
  · rintro v _ ⟨i, hi, _⟩
    omega

theorem scan_go (data : List (ℕ × ℕ)) (p bits : ℕ)
    (hpb : p + bits ≤ 64)
    (hmono : ∀ i k, i ≤ k → k < data.length →
      radixOf p bits ((data.getD i (0, 0)).1) ≤ radixOf p bits ((data.getD k (0, 0)).1))
    (hpos : ∀ i, i < data.length → (data.getD i (0, 0)).2 = i)
    (hlen32 : data.length ≤ 2 ^ 32) :
    ∀ (l : List (ℕ × ℕ)) (j : ℕ) (st : List ℕ × ℕ),
      data.drop j = l → j ≤ data.length → ScanInv data p bits j st →
      ScanInv data p bits data.length (l.foldl (tableScanStep p bits) st) := by
  intro l
  induction l with
  | nil =>
    intro j st hdrop hjle hinv
    have hge : data.length ≤ j := List.drop_eq_nil_iff.mp hdrop
    have hj : j = data.length := le_antisymm hjle hge
    rw [List.foldl_nil]
    exact hj ▸ hinv
  | cons e l ih =>
    intro j st hdrop hjle hinv
    have hjlt : j < data.length := by
      by_contra h
      rw [List.drop_eq_nil_iff.mpr (by omega)] at hdrop
      exact absurd hdrop (by simp)
    have hdj : data.drop j = data.getD j (0, 0) :: data.drop (j + 1) := by
      rw [List.drop_eq_getElem_cons hjlt, List.getD_eq_getElem _ _ hjlt]
    rw [hdj] at hdrop
    injection hdrop with he hl
    rw [List.foldl_cons, ← he]
    exact ih (j + 1) _ hl (by omega)
      (scanStep_inv data p bits j st hpb hmono hpos hlen32 hjlt hinv)

/-- C7 is false as stated: `exC7` is sorted with rank positions, yet
the hint table built with `bits = 2` is `[0, 5, 5, 4]` — the recorded
position 5 exceeds the past-the-end sentinel 4, so the entries are not
non-decreasing across increasing bit-field indices. -/
theorem radixTable_not_monotone_counterexample :
    (exC7.map Prod.fst).Pairwise (fun a b => a ≤ b) ∧
    (∀ i, i < exC7.length → (exC7.getD i (0, 0)).2 = i) ∧
    ¬ (RadixTable_new exC7 2).hint_table.Pairwise (fun a b => a ≤ b) := by
  refine ⟨by decide, by decide, ?_⟩
  have htab : (RadixTable_new exC7 2).hint_table = [0, 5, 5, 4] := by decide
  rw [htab]
  decide

/-- C7 (amended): for every sorted dataset with rank positions (`u64`
keys, at most `2 ^ 32` entries, `bits < 32`, and a feasible
`prefix + bits ≤ 64`): (i) the hint-table entries are non-decreasing up
to the last observed bit-field index (monotonicity may only break at
the sentinel boundary, as the counterexample shows); (ii) the slot of
every observed bit-field value holds the position of the first dataset
entry with that value; and (iii) every trailing slot after the last
observed bit-field value holds the table length `2 ^ bits`. -/
theorem radixTable_invariants_amended (data : List (ℕ × ℕ)) (bits : ℕ)
    (hne : data ≠ [])
    (hsort : (data.map Prod.fst).Pairwise (fun a b => a ≤ b))
    (hk64 : ∀ e ∈ data, e.1 < 2 ^ 64)
    (hpos : ∀ i, i < data.length → (data.getD i (0, 0)).2 = i)
    (hlen32 : data.length ≤ 2 ^ 32)
    (hbits : bits < 32)
    (hpb : commonPrefixSize data + bits ≤ 64) :
    (∀ w v, w ≤ v →
      v ≤ radixOf (commonPrefixSize data) bits ((data.getD (data.length - 1) (0, 0)).1) →
      (RadixTable_new data bits).hint_table.getD w 0
        ≤ (RadixTable_new data bits).hint_table.getD v 0) ∧
    (∀ v i, i < data.length →
      radixOf (commonPrefixSize data) bits ((data.getD i (0, 0)).1) = v →
      (RadixTable_new data bits).hint_table.getD v 0
        = data.findIdx (fun e => radixOf (commonPrefixSize data) bits e.1 == v)) ∧
    (∀ i, radixOf (commonPrefixSize data) bits ((data.getD (data.length - 1) (0, 0)).1) < i →
      i < 2 ^ bits → (RadixTable_new data bits).hint_table.getD i 0 = 2 ^ bits) := by
  have hmono := rad_mono data bits hk64 hsort
  have hlenpos : 0 < data.length := List.length_pos.mpr hne
  obtain ⟨g1, g20, g2, g3, g4, g6, g5⟩ :=
    scan_go data (commonPrefixSize data) bits hpb hmono hpos hlen32 data 0
      (List.replicate (2 ^ bits) 0, 0) (List.drop_zero data) (Nat.zero_le _)
      (scanInv_base data (commonPrefixSize data) bits)
  have hlast :
      (data.foldl (tableScanStep (commonPrefixSize data) bits)
        (List.replicate (2 ^ bits) 0, 0)).2
      = radixOf (commonPrefixSize data) bits ((data.getD (data.length - 1) (0, 0)).1) :=
    g2 hlenpos
  have hsent : u32cast (2 ^ bits) = 2 ^ bits :=
    Nat.mod_eq_of_lt (Nat.pow_lt_pow_right (by decide) hbits)
  have hfin_lt :
      (data.foldl (tableScanStep (commonPrefixSize data) bits)
        (List.replicate (2 ^ bits) 0, 0)).2 < 2 ^ bits := by
    rw [hlast]
    exact radixOf_lt _ _ _ hpb
  unfold RadixTable_new
  dsimp only
  rw [hsent]
  set stf := data.foldl (tableScanStep (commonPrefixSize data) bits)
    (List.replicate (2 ^ bits) 0, 0) with hstf
  have hTfin : ∀ i,
      (backfill (2 ^ bits) stf.1 (stf.2 + 1) (2 ^ bits - (stf.2 + 1))).getD i 0 =
        if stf.2 + 1 ≤ i ∧ i < 2 ^ bits then 2 ^ bits else stf.1.getD i 0 := by
    intro i
    rw [backfill_getD, g1]
    exact if_congr (by omega) rfl rfl
  refine ⟨?_, ?_, ?_⟩
  · intro w v hwv hv
    have hv2 : v ≤ stf.2 := by
      rw [hlast]
      exact hv
    rw [hTfin w, hTfin v, if_neg (by omega), if_neg (by omega)]
    exact g3 w v hwv hv2
  · intro v i hi hri
    have hvle : v ≤ stf.2 := by
      rw [hlast, ← hri]
      exact hmono i (data.length - 1) (by omega) (by omega)
    rw [hTfin v, if_neg (by omega)]
    rcases Nat.eq_zero_or_pos v with rfl | hvpos
    · rw [g6]
      have hrad0 : radixOf (commonPrefixSize data) bits ((data.getD 0 (0, 0)).1) = 0 := by
        have := hmono 0 i (Nat.zero_le i) hi
        omega
      exact (findIdx_eq_of (fun e => radixOf (commonPrefixSize data) bits e.1 == 0) data 0
        hlenpos (fun i' hi' => absurd hi' (Nat.not_lt_zero i')) (beq_iff_eq.mpr hrad0)).symm
    · exact g5 v hvpos ⟨i, hi, hri⟩
  · intro i hgt hilt
    have hgt2 : stf.2 < i := by
      rw [hlast]
      exact hgt
    rw [hTfin i, if_pos ⟨by omega, hilt⟩]

/-- Witness for the amended C7 on the dataset `[(0,0), (1,1)]` with
`bits = 1` (prefix 63, hint table `[0, 1]`). -/
theorem radixTable_invariants_amended_witness :
    (([((0 : ℕ), (0 : ℕ)), (1, 1)] : List (ℕ × ℕ)) ≠ [] ∧
      (([((0 : ℕ), (0 : ℕ)), (1, 1)] : List (ℕ × ℕ)).map Prod.fst).Pairwise (fun a b => a ≤ b) ∧
      (∀ e ∈ ([((0 : ℕ), (0 : ℕ)), (1, 1)] : List (ℕ × ℕ)), e.1 < 2 ^ 64) ∧
      (∀ i, i < ([((0 : ℕ), (0 : ℕ)), (1, 1)] : List (ℕ × ℕ)).length →
        (([((0 : ℕ), (0 : ℕ)), (1, 1)] : List (ℕ × ℕ)).getD i (0, 0)).2 = i) ∧
      ([((0 : ℕ), (0 : ℕ)), (1, 1)] : List (ℕ × ℕ)).length ≤ 2 ^ 32 ∧
      1 < 32 ∧
      commonPrefixSize [((0 : ℕ), (0 : ℕ)), (1, 1)] + 1 ≤ 64) ∧
    ((∀ w v, w ≤ v →
      v ≤ radixOf (commonPrefixSize [((0 : ℕ), (0 : ℕ)), (1, 1)]) 1
        ((([((0 : ℕ), (0 : ℕ)), (1, 1)] : List (ℕ × ℕ)).getD
          (([((0 : ℕ), (0 : ℕ)), (1, 1)] : List (ℕ × ℕ)).length - 1) (0, 0)).1) →
      (RadixTable_new [((0 : ℕ), (0 : ℕ)), (1, 1)] 1).hint_table.getD w 0
        ≤ (RadixTable_new [((0 : ℕ), (0 : ℕ)), (1, 1)] 1).hint_table.getD v 0) ∧
    (∀ v i, i < ([((0 : ℕ), (0 : ℕ)), (1, 1)] : List (ℕ × ℕ)).length →
      radixOf (commonPrefixSize [((0 : ℕ), (0 : ℕ)), (1, 1)]) 1
        ((([((0 : ℕ), (0 : ℕ)), (1, 1)] : List (ℕ × ℕ)).getD i (0, 0)).1) = v →
      (RadixTable_new [((0 : ℕ), (0 : ℕ)), (1, 1)] 1).hint_table.getD v 0
        = ([((0 : ℕ), (0 : ℕ)), (1, 1)] : List (ℕ × ℕ)).findIdx
            (fun e => radixOf (commonPrefixSize [((0 : ℕ), (0 : ℕ)), (1, 1)]) 1 e.1 == v)) ∧
    (∀ i, radixOf (commonPrefixSize [((0 : ℕ), (0 : ℕ)), (1, 1)]) 1
        ((([((0 : ℕ), (0 : ℕ)), (1, 1)] : List (ℕ × ℕ)).getD
          (([((0 : ℕ), (0 : ℕ)), (1, 1)] : List (ℕ × ℕ)).length - 1) (0, 0)).1) < i →
      i < 2 ^ 1 → (RadixTable_new [((0 : ℕ), (0 : ℕ)), (1, 1)] 1).hint_table.getD i 0 = 2 ^ 1)) :=
  ⟨⟨by decide, by decide, by decide, by decide, by decide, by decide, by decide⟩,
    radixTable_invariants_amended [((0 : ℕ), (0 : ℕ)), (1, 1)] 1 (by decide) (by decide)
      (by decide) (by decide) (by decide) (by decide) (by decide)⟩
